import Mathlib

set_option maxHeartbeats 1000000

/-
Verification of the Lang-Monitor change-detection pipeline
(scripts/check_updates.py).  The detection pass check_for_updates,
the key helper generate_monitor_key, the JSON loader load_json_file and
the exit behaviour of main are embedded as executable Lean functions.
The run's view of the GitHub commits endpoint (get_path_commits) is a
parameter of type Fetcher: one run sees it as a function of the
(repo, branch, path) triple.  Exceptions escaping the detection loop
(Python KeyError on a missing dict field) are modelled by Except:
the run either returns .ok with its results or aborts with .error.
The trace field records, in order, every call made to get_path_commits
during the run, so that fetch-count properties can be stated.
-/

namespace LangMonitor

/-- Data of one commit object as read by check_for_updates
(check_updates.py lines 138-142): sha, full commit message, committer
date and author name. -/
structure Commit where
  sha : String
  message : String
  date : String
  author : String
  deriving DecidableEq

/-- Outcome of one get_path_commits call (lines 74-79, 128): either an
error string, or the (possibly empty) list of commits for the path. -/
inductive FetchResult where
  | failure (msg : String)
  | success (commits : List Commit)
  deriving DecidableEq

/-- One run's view of get_path_commits as a function of repo, branch
and path. -/
abbrev Fetcher := String → String → String → FetchResult

/-- One entry of the monitors list of the configuration.  Optional
fields model dict keys that may be absent (accessed via .get or via
raising [] indexing in the source).  enabled models the value of
monitor.get with default True (line 112).  vars appears in
configurations but is never read by check_updates.py. -/
structure Monitor where
  repo? : Option String
  branch? : Option String
  name? : Option String
  enabled : Bool
  paths : List String
  vars : List (String × String)
  deriving DecidableEq

/-- The configuration document as used by check_for_updates and main:
config.get with key monitors and default empty list (lines 111, 746). -/
structure Config where
  monitors : List Monitor
  deriving DecidableEq

/-- One persisted snapshot entry, as written at lines 149-155 and
174-180.  last_sha is optional because the code reads it with .get
(line 145). -/
structure SnapshotEntry where
  last_sha : Option String
  last_check : String
  path : String
  repo : String
  branch : String
  deriving DecidableEq

/-- The monitors mapping of the persisted state: a dict from watch key
to snapshot entry, modelled as an association list with dict insert
semantics. -/
abbrev StateMap := List (String × SnapshotEntry)

/-- The persisted state document (data/state.json): the monitors
mapping (state.get with default empty dict, line 109) and the global
last_check timestamp (line 185). -/
structure RunState where
  monitors : StateMap
  last_check : Option String
  deriving DecidableEq

/-- One update record appended at lines 159-172. -/
structure UpdateEvent where
  name : String
  repo : String
  branch : String
  path : String
  old_sha : String
  new_sha : String
  commit_message : String
  commit_date : String
  commit_author : String
  compare_url : String
  commit_url : String
  file_url : String
  deriving DecidableEq

/-- A concrete (repo, branch, path) triple. -/
abbrev Triple := String × String × String

/-- Everything one detection pass produces: the updates list returned
by check_for_updates, the mutated state, and the ordered trace of
get_path_commits calls made during the pass. -/
structure CheckResult where
  updates : List UpdateEvent
  state : RunState
  trace : List Triple
  deriving DecidableEq

/-- First line of a commit message: message.split with newline, index 0
(line 140). -/
def firstLine (s : String) : String :=
  (s.splitOn ("\n")).headD ("")

/-- generate_monitor_key (lines 99-101): the f-string
repo : branch : path.  The branch argument is the raw monitor branch
field (monitor indexing, which raises when absent), not the defaulted
local variable. -/
def generate_monitor_key (repo branchField path : String) : String :=
  repo ++ (":") ++ branchField ++ (":") ++ path

/-- Watch key of a concrete triple. -/
def keyOf (t : Triple) : String :=
  generate_monitor_key t.1 t.2.1 t.2.2

/-- Watch key carried by an update event (its repo, branch and path
fields). -/
def eventKey (e : UpdateEvent) : String :=
  e.repo ++ (":") ++ e.branch ++ (":") ++ e.path

/-- Snapshot entry written by the detection pass (lines 149-155 and
174-180): fetched sha, timestamp of the check, and the path, repo and
defaulted branch of the monitor. -/
def mkEntry (sha now path repo branch : String) : SnapshotEntry :=
  ⟨some sha, now, path, repo, branch⟩

/-- Update record built at lines 159-172. -/
def mkEvent (name repo branch path prev : String) (c : Commit) : UpdateEvent :=
  { name := name
    repo := repo
    branch := branch
    path := path
    old_sha := prev
    new_sha := c.sha
    commit_message := firstLine c.message
    commit_date := c.date
    commit_author := c.author
    compare_url := ("https://github.com/") ++ repo ++ ("/compare/") ++ prev.take 7
      ++ ("...") ++ c.sha.take 7
    commit_url := ("https://github.com/") ++ repo ++ ("/commit/") ++ c.sha
    file_url := ("https://github.com/") ++ repo ++ ("/blob/") ++ branch ++ ("/") ++ path }

/-- Dict lookup on the monitors mapping. -/
def lookupKey : StateMap → String → Option SnapshotEntry
  | [], _ => none
  | (k', v) :: rest, k => if k' = k then some v else lookupKey rest k

/-- Dict item assignment on the monitors mapping. -/
def insertKey : StateMap → String → SnapshotEntry → StateMap
  | [], k, v => [(k, v)]
  | (k', v') :: rest, k, v =>
      if k' = k then (k, v) :: rest else (k', v') :: insertKey rest k v

/-- previous_sha of line 145: monitors_state.get with the key and empty
default, then .get of last_sha. -/
def PrevSha (st : StateMap) (k : String) : Option String :=
  (lookupKey st k).bind (fun en => en.last_sha)

/-- Events of a run that carry the given watch key. -/
def eventsFor (k : String) (es : List UpdateEvent) : List UpdateEvent :=
  es.filter (fun e => eventKey e == k)

/-- Head commit returned by the fetcher for a triple, when the fetch
succeeds with a nonempty commit list. -/
def fetchedCommit (fetch : Fetcher) (t : Triple) : Option Commit :=
  match fetch t.1 t.2.1 t.2.2 with
  | .success (c :: _) => some c
  | _ => none

/-- The inner loop of check_for_updates over one monitor's paths
(lines 123-182).  branchField is the raw branch field of the monitor
dict (used by generate_monitor_key at line 124, raising KeyError when
absent), branch is the defaulted local of line 117 (used for the fetch,
for the entry and for the event), name the defaulted local of
line 118.  Accumulates the state mapping, the updates list and the
trace of fetch calls. -/
def checkPaths (fetch : Fetcher) (now repo : String) (branchField : Option String)
    (branch name : String) :
    List String → StateMap → List UpdateEvent → List Triple →
    Except Unit (StateMap × List UpdateEvent × List Triple)
  | [], st, ups, tr => .ok (st, ups, tr)
  | path :: rest, st, ups, tr =>
    match branchField with
    | none => .error ()
    | some bf =>
      match fetch repo branch path with
      | .failure _ =>
          checkPaths fetch now repo (some bf) branch name rest st ups
            (tr ++ [(repo, branch, path)])
      | .success [] =>
          checkPaths fetch now repo (some bf) branch name rest st ups
            (tr ++ [(repo, branch, path)])
      | .success (c :: _) =>
          match PrevSha st (generate_monitor_key repo bf path) with
          | none =>
              checkPaths fetch now repo (some bf) branch name rest
                (insertKey st (generate_monitor_key repo bf path)
                  (mkEntry c.sha now path repo branch))
                ups (tr ++ [(repo, branch, path)])
          | some prev =>
              if prev = c.sha then
                checkPaths fetch now repo (some bf) branch name rest st ups
                  (tr ++ [(repo, branch, path)])
              else
                checkPaths fetch now repo (some bf) branch name rest
                  (insertKey st (generate_monitor_key repo bf path)
                    (mkEntry c.sha now path repo branch))
                  (ups ++ [mkEvent name repo branch path prev c])
                  (tr ++ [(repo, branch, path)])

/-- The outer loop of check_for_updates over the monitors list
(lines 111-182).  A monitor whose repo field is absent raises KeyError
(line 116, and line 113 evaluates the same index eagerly for disabled
monitors), modelled as .error.  Disabled monitors are skipped. -/
def checkMonitors (fetch : Fetcher) (now : String) :
    List Monitor → StateMap → List UpdateEvent → List Triple →
    Except Unit (StateMap × List UpdateEvent × List Triple)
  | [], st, ups, tr => .ok (st, ups, tr)
  | m :: rest, st, ups, tr =>
    match m.repo? with
    | none => .error ()
    | some repo =>
      if m.enabled then
        match checkPaths fetch now repo m.branch? (m.branch?.getD ("main"))
            (m.name?.getD repo) m.paths st ups tr with
        | .error _ => .error ()
        | .ok (st', ups', tr') => checkMonitors fetch now rest st' ups' tr'
      else
        checkMonitors fetch now rest st ups tr

/-- check_for_updates (lines 103-187): runs the detection loop from the
prior state's monitors mapping with empty updates, then writes the
monitors mapping and the last_check timestamp back into the state. -/
def check_for_updates (fetch : Fetcher) (now : String) (config : Config)
    (state : RunState) : Except Unit CheckResult :=
  match checkMonitors fetch now config.monitors state.monitors [] [] with
  | .error _ => .error ()
  | .ok (st, ups, tr) => .ok ⟨ups, ⟨st, some now⟩, tr⟩

/-- Contents of a JSON file on disk as load_json_file distinguishes
them: absent (FileNotFoundError), present but syntactically invalid
(json.JSONDecodeError), or present and valid with parsed data. -/
inductive FileOnDisk (α : Type) where
  | absent
  | corrupt
  | valid (data : α)

/-- load_json_file (lines 26-35): both an absent file and an invalid
one yield the empty document; emptyVal is the interpretation of the
empty dict at the document's type. -/
def load_json_file {α : Type} (emptyVal : α) : FileOnDisk α → α
  | .absent => emptyVal
  | .corrupt => emptyVal
  | .valid d => d

/-- The empty configuration document (empty dict: monitors key
absent). -/
def emptyConfig : Config := ⟨[]⟩

/-- The empty state document (empty dict: monitors and last_check keys
absent). -/
def emptyState : RunState := ⟨[], none⟩

/-- Exit status of main (lines 729-809): 1 via sys.exit when the loaded
configuration has no monitors (lines 746-748); 1 when the detection
pass raises an uncaught exception (the interpreter exits nonzero);
otherwise 0 (line 806 returns 0 whether or not updates were found). -/
def mainExitCode (fetch : Fetcher) (now : String) (configFile : FileOnDisk Config)
    (stateFile : FileOnDisk RunState) : Nat :=
  if (load_json_file emptyConfig configFile).monitors.isEmpty then 1
  else
    match check_for_updates fetch now (load_json_file emptyConfig configFile)
        (load_json_file emptyState stateFile) with
    | .error _ => 1
    | .ok _ => 0

/-- Whether a detection pass ran to completion (no uncaught
exception). -/
def runOk : Except Unit CheckResult → Bool
  | .ok _ => true
  | .error _ => false

/-- The fields a monitor entry needs for the detection loop not to
raise: a repo field, and, if it is enabled and has paths, a branch
field (generate_monitor_key indexes the raw branch field at
line 124). -/
def monitorOk (m : Monitor) : Prop :=
  m.repo? ≠ none ∧ (m.enabled = true → m.paths ≠ [] → m.branch? ≠ none)

instance (m : Monitor) : Decidable (monitorOk m) := by
  unfold monitorOk; infer_instance

/-- A string with no colon character.  GitHub owner/name identifiers
and git branch names never contain a colon, and watch keys of
colon-free repo and branch fields determine their triple. -/
def colonFreeB (s : String) : Bool :=
  s.data.all (fun ch => ch != (':'))

/-- A monitor whose repo and branch fields (when present) are
colon-free. -/
def monitorCF (m : Monitor) : Bool :=
  m.repo?.all colonFreeB && m.branch?.all colonFreeB

/-- A configuration all of whose monitors have colon-free repo and
branch fields, so that watch keys are in bijection with the triples
they name (the spec's WatchKey notion). -/
def configCF (cfg : Config) : Bool :=
  cfg.monitors.all monitorCF

/-- All triples of a trace have colon-free repo and branch
components. -/
def TrCF (tr : List Triple) : Prop :=
  ∀ t ∈ tr, colonFreeB t.1 = true ∧ colonFreeB t.2.1 = true

/-- The triples one monitor contributes to the run's fetch trace:
nothing when disabled, otherwise one triple per configured path, with
the defaulted branch. -/
def monitorTrace (m : Monitor) : List Triple :=
  if m.enabled then
    m.paths.map (fun p => (m.repo?.getD (""), m.branch?.getD ("main"), p))
  else []

/-- The fetch trace a monitors list produces. -/
def monitorsTrace (ms : List Monitor) : List Triple :=
  ms.flatMap monitorTrace

/-- A state that already stores, for every triple the configuration
checks whose fetch succeeds with a commit, that commit's sha. -/
def GoodState (fetch : Fetcher) (cfg : Config) (st : StateMap) : Prop :=
  ∀ t ∈ monitorsTrace cfg.monitors, ∀ c : Commit,
    fetchedCommit fetch t = some c → PrevSha st (keyOf t) = some c.sha

/-- Per-key postcondition of processing key k via triple t with head
commit c, relative to the prior mapping st₀: no prior sha means a fresh
baseline entry and no events; a prior sha equal to c.sha means the
entry and events are untouched; a differing prior sha means the entry
is overwritten and exactly one event (with some monitor name) was
emitted. -/
def InvAt (now : String) (st₀ st : StateMap) (ups : List UpdateEvent)
    (k : String) (t : Triple) (c : Commit) : Prop :=
  (PrevSha st₀ k = none →
    lookupKey st k = some (mkEntry c.sha now t.2.2 t.1 t.2.1) ∧ eventsFor k ups = []) ∧
  (PrevSha st₀ k = some c.sha →
    lookupKey st k = lookupKey st₀ k ∧ eventsFor k ups = []) ∧
  (∀ A, PrevSha st₀ k = some A → A ≠ c.sha →
    lookupKey st k = some (mkEntry c.sha now t.2.2 t.1 t.2.1) ∧
    ∃ nm, eventsFor k ups = [mkEvent nm t.1 t.2.1 t.2.2 A c])

/-- Loop invariant of the detection pass: a key no fetched-with-commit
triple of the trace names is untouched (entry and events), and a key
some fetched-with-commit triple names satisfies InvAt for that triple
and commit. -/
def Inv (fetch : Fetcher) (now : String) (st₀ st : StateMap)
    (ups : List UpdateEvent) (tr : List Triple) : Prop :=
  ∀ k : String,
    ((∀ t ∈ tr, keyOf t = k → fetchedCommit fetch t = none) →
      lookupKey st k = lookupKey st₀ k ∧ eventsFor k ups = []) ∧
    (∀ t ∈ tr, keyOf t = k → ∀ c : Commit, fetchedCommit fetch t = some c →
      InvAt now st₀ st ups k t c)

/-- Replace a monitor's vars mapping. -/
def setVars (v : List (String × String)) (m : Monitor) : Monitor :=
  { m with vars := v }

/-- A fetcher whose every path has exactly one commit, with sha aaa. -/
def fetchA : Fetcher :=
  fun _ _ _ => .success [⟨("aaa"), ("m"), ("d"), ("a")⟩]

/-- Trace of a detection pass, empty when the pass aborted. -/
def traceOf (x : Except Unit CheckResult) : List Triple :=
  match x with
  | .ok r => r.trace
  | .error _ => []

/-- Updates of a detection pass, empty when the pass aborted. -/
def updatesOf (x : Except Unit CheckResult) : List UpdateEvent :=
  match x with
  | .ok r => r.updates
  | .error _ => []

/-- Dict lookup after dict assignment. -/
theorem lookupKey_insertKey (st : StateMap) (k : String) (v : SnapshotEntry)
    (k' : String) :
    lookupKey (insertKey st k v) k' = if k = k' then some v else lookupKey st k' := by
  induction st with
  | nil => simp [insertKey, lookupKey]
  | cons hd rest ih =>
    obtain ⟨k₀, v₀⟩ := hd
    by_cases h₀ : k₀ = k
    · subst h₀
      by_cases h₁ : k₀ = k'
      · subst h₁; simp [insertKey, lookupKey]
      · simp [insertKey, lookupKey, h₁]
    · by_cases h₁ : k₀ = k'
      · subst h₁
        have hk : ¬k = k₀ := fun h => h₀ h.symm
        simp [insertKey, lookupKey, h₀, hk]
      · simp [insertKey, lookupKey, h₀, h₁, ih]

theorem eventsFor_nil (k : String) : eventsFor k [] = [] := rfl

theorem eventsFor_append (k : String) (xs ys : List UpdateEvent) :
    eventsFor k (xs ++ ys) = eventsFor k xs ++ eventsFor k ys := by
  simp [eventsFor, List.filter_append]

theorem eventsFor_single_eq {k : String} {e : UpdateEvent} (h : eventKey e = k) :
    eventsFor k [e] = [e] := by
  simp [eventsFor, List.filter, h]

theorem eventsFor_single_ne {k : String} {e : UpdateEvent} (h : eventKey e ≠ k) :
    eventsFor k [e] = [] := by
  have hb : (eventKey e == k) = false := beq_eq_false_iff_ne.mpr h
  simp [eventsFor, List.filter, hb]

theorem eventKey_mkEvent (nm r b p A : String) (c : Commit) :
    eventKey (mkEvent nm r b p A c) = generate_monitor_key r b p := rfl

theorem keyOf_mk (r b p : String) : keyOf (r, b, p) = generate_monitor_key r b p := rfl

theorem string_data_inj {s t : String} (h : s.data = t.data) : s = t :=
  String.ext h

theorem string_data_append (s t : String) : (s ++ t).data = s.data ++ t.data := by
  cases s; cases t; rfl

theorem colonFreeB_chars {s : String} (h : colonFreeB s = true) :
    ∀ ch ∈ s.data, ch ≠ (':') := by
  intro ch hch
  have := (List.all_eq_true.mp h) ch hch
  simpa using this

theorem chars_colon_inj : ∀ (a₁ a₂ x y : List Char),
    (∀ ch ∈ a₁, ch ≠ (':')) → (∀ ch ∈ a₂, ch ≠ (':')) →
    a₁ ++ (':') :: x = a₂ ++ (':') :: y → a₁ = a₂ ∧ x = y := by
  intro a₁
  induction a₁ with
  | nil =>
    intro a₂ x y h₁ h₂ h
    cases a₂ with
    | nil => simpa using h
    | cons b bs =>
      simp only [List.nil_append, List.cons_append, List.cons.injEq] at h
      exact absurd h.1.symm (h₂ b (by simp))
  | cons a as ih =>
    intro a₂ x y h₁ h₂ h
    cases a₂ with
    | nil =>
      simp only [List.nil_append, List.cons_append, List.cons.injEq] at h
      exact absurd h.1 (h₁ a (by simp))
    | cons b bs =>
      simp only [List.cons_append, List.cons.injEq] at h
      obtain ⟨hab, h'⟩ := h
      obtain ⟨h1, h2⟩ := ih bs x y (fun ch hch => h₁ ch (by simp [hch]))
        (fun ch hch => h₂ ch (by simp [hch])) h'
      exact ⟨by rw [hab, h1], h2⟩

theorem generate_monitor_key_data (r b p : String) :
    (generate_monitor_key r b p).data = r.data ++ (':') :: (b.data ++ (':') :: p.data) := by
  simp only [generate_monitor_key, string_data_append]
  simp [List.append_assoc]

theorem key_inj {r₁ b₁ p₁ r₂ b₂ p₂ : String}
    (hr₁ : colonFreeB r₁ = true) (hb₁ : colonFreeB b₁ = true)
    (hr₂ : colonFreeB r₂ = true) (hb₂ : colonFreeB b₂ = true)
    (h : generate_monitor_key r₁ b₁ p₁ = generate_monitor_key r₂ b₂ p₂) :
    r₁ = r₂ ∧ b₁ = b₂ ∧ p₁ = p₂ := by
  have hd := congrArg String.data h
  rw [generate_monitor_key_data, generate_monitor_key_data] at hd
  obtain ⟨hr, hrest⟩ := chars_colon_inj _ _ _ _ (colonFreeB_chars hr₁) (colonFreeB_chars hr₂) hd
  obtain ⟨hb, hp⟩ := chars_colon_inj _ _ _ _ (colonFreeB_chars hb₁) (colonFreeB_chars hb₂) hrest
  exact ⟨string_data_inj hr, string_data_inj hb, string_data_inj hp⟩

theorem keyOf_inj {t₁ t₂ : Triple}
    (h₁r : colonFreeB t₁.1 = true) (h₁b : colonFreeB t₁.2.1 = true)
    (h₂r : colonFreeB t₂.1 = true) (h₂b : colonFreeB t₂.2.1 = true)
    (h : keyOf t₁ = keyOf t₂) : t₁ = t₂ := by
  obtain ⟨r₁, b₁, p₁⟩ := t₁
  obtain ⟨r₂, b₂, p₂⟩ := t₂
  obtain ⟨hr, hb, hp⟩ := key_inj h₁r h₁b h₂r h₂b h
  simp_all

theorem TrCF_append {tr : List Triple} {t : Triple} (h : TrCF tr)
    (hr : colonFreeB t.1 = true) (hb : colonFreeB t.2.1 = true) :
    TrCF (tr ++ [t]) := by
  intro t' ht'
  rcases List.mem_append.mp ht' with h' | h'
  · exact h t' h'
  · simp at h'; subst h'; exact ⟨hr, hb⟩

theorem InvAt_congr {now : String} {st₀ st st' : StateMap}
    {ups ups' : List UpdateEvent} {k : String} {t : Triple} {c : Commit}
    (hst : lookupKey st' k = lookupKey st k)
    (hup : eventsFor k ups' = eventsFor k ups)
    (h : InvAt now st₀ st ups k t c) : InvAt now st₀ st' ups' k t c := by
  refine ⟨?_, ?_, ?_⟩
  · intro hp; obtain ⟨h1, h2⟩ := h.1 hp; exact ⟨hst.trans h1, hup.trans h2⟩
  · intro hp; obtain ⟨h1, h2⟩ := h.2.1 hp; exact ⟨hst.trans h1, hup.trans h2⟩
  · intro A hp hA; obtain ⟨h1, h2⟩ := h.2.2 A hp hA
    refine ⟨hst.trans h1, ?_⟩
    rw [hup]; exact h2

theorem InvAt_prev {now : String} {st₀ st : StateMap} {ups : List UpdateEvent}
    {k : String} {t : Triple} {c : Commit}
    (h : InvAt now st₀ st ups k t c) : PrevSha st k = some c.sha := by
  rcases hp : PrevSha st₀ k with _ | A
  · have h1 := (h.1 hp).1
    simp [PrevSha, h1, mkEntry]
  · by_cases hA : A = c.sha
    · subst hA
      have h1 := (h.2.1 hp).1
      simp only [PrevSha] at hp ⊢
      rw [h1]; exact hp
    · have h1 := (h.2.2 A hp hA).1
      simp [PrevSha, h1, mkEntry]

theorem processed_or_not {fetch : Fetcher} {now : String} {st₀ st : StateMap}
    {ups : List UpdateEvent} {tr : List Triple} (hTr : TrCF tr)
    (hInv : Inv fetch now st₀ st ups tr) (u : Triple)
    (hur : colonFreeB u.1 = true) (hub : colonFreeB u.2.1 = true) :
    (∀ t ∈ tr, keyOf t = keyOf u → fetchedCommit fetch t = none) ∨
    (∀ c : Commit, fetchedCommit fetch u = some c → InvAt now st₀ st ups (keyOf u) u c) := by
  by_cases hex : ∃ t ∈ tr, keyOf t = keyOf u ∧ fetchedCommit fetch t ≠ none
  · right
    obtain ⟨t, ht, hk, _⟩ := hex
    have htu : t = u := keyOf_inj (hTr t ht).1 (hTr t ht).2 hur hub hk
    subst htu
    intro c hc
    exact (hInv (keyOf t)).2 t ht rfl c hc
  · left
    intro t ht hk
    by_contra hne
    exact hex ⟨t, ht, hk, hne⟩

theorem Inv_base (fetch : Fetcher) (now : String) (st₀ : StateMap) :
    Inv fetch now st₀ st₀ [] [] := by
  intro k
  refine ⟨fun _ => ⟨rfl, rfl⟩, ?_⟩
  intro t ht
  simp at ht

theorem Inv_step_none {fetch : Fetcher} {now : String} {st₀ st : StateMap}
    {ups : List UpdateEvent} {tr : List Triple}
    (hInv : Inv fetch now st₀ st ups tr)
    {u : Triple} (hc : fetchedCommit fetch u = none) :
    Inv fetch now st₀ st ups (tr ++ [u]) := by
  intro k
  refine ⟨?_, ?_⟩
  · intro h
    exact (hInv k).1 (fun t ht hk => h t (List.mem_append_left _ ht) hk)
  · intro t ht hk c hcc
    rcases List.mem_append.mp ht with ht | ht
    · exact (hInv k).2 t ht hk c hcc
    · simp at ht; subst ht
      rw [hc] at hcc; simp at hcc

theorem Inv_step_first {fetch : Fetcher} {now : String} {st₀ st : StateMap}
    {ups : List UpdateEvent} {tr : List Triple} (hTr : TrCF tr)
    (hInv : Inv fetch now st₀ st ups tr) {u : Triple}
    (hur : colonFreeB u.1 = true) (hub : colonFreeB u.2.1 = true)
    {c : Commit} (hc : fetchedCommit fetch u = some c)
    (hprev : PrevSha st (keyOf u) = none) :
    Inv fetch now st₀ (insertKey st (keyOf u) (mkEntry c.sha now u.2.2 u.1 u.2.1)) ups
      (tr ++ [u]) := by
  have hnone : ∀ t ∈ tr, keyOf t = keyOf u → fetchedCommit fetch t = none := by
    rcases processed_or_not hTr hInv u hur hub with h | h
    · exact h
    · have hps := InvAt_prev (h c hc)
      rw [hprev] at hps; simp at hps
  have h0 := (hInv (keyOf u)).1 hnone
  have hp0 : PrevSha st₀ (keyOf u) = none := by
    simp only [PrevSha] at hprev ⊢
    rw [← h0.1]; exact hprev
  intro k
  by_cases hkk : keyOf u = k
  · subst hkk
    refine ⟨?_, ?_⟩
    · intro h
      have := h u (List.mem_append_right _ (by simp)) rfl
      rw [hc] at this; simp at this
    · intro t ht hk c' hc'
      rcases List.mem_append.mp ht with ht | ht
      · have := hnone t ht hk
        rw [hc'] at this; simp at this
      · simp at ht; subst ht
        rw [hc] at hc'
        have hcc : c' = c := (Option.some.inj hc').symm
        subst hcc
        refine ⟨?_, ?_, ?_⟩
        · intro _
          constructor
          · rw [lookupKey_insertKey]; simp
          · exact h0.2
        · intro hsome; rw [hp0] at hsome; simp at hsome
        · intro A hA; rw [hp0] at hA; simp at hA
  · have hlk : lookupKey (insertKey st (keyOf u) (mkEntry c.sha now u.2.2 u.1 u.2.1)) k
        = lookupKey st k := by
      rw [lookupKey_insertKey]; simp [hkk]
    refine ⟨?_, ?_⟩
    · intro h
      have h' := (hInv k).1 (fun t ht hk => h t (List.mem_append_left _ ht) hk)
      exact ⟨hlk.trans h'.1, h'.2⟩
    · intro t ht hk c' hc'
      rcases List.mem_append.mp ht with ht | ht
      · exact InvAt_congr hlk rfl ((hInv k).2 t ht hk c' hc')
      · simp at ht; subst ht; exact absurd hk hkk

theorem Inv_step_same {fetch : Fetcher} {now : String} {st₀ st : StateMap}
    {ups : List UpdateEvent} {tr : List Triple} (hTr : TrCF tr)
    (hInv : Inv fetch now st₀ st ups tr) {u : Triple}
    (hur : colonFreeB u.1 = true) (hub : colonFreeB u.2.1 = true)
    {c : Commit} (hc : fetchedCommit fetch u = some c)
    (hprev : PrevSha st (keyOf u) = some c.sha) :
    Inv fetch now st₀ st ups (tr ++ [u]) := by
  intro k
  by_cases hkk : keyOf u = k
  · subst hkk
    refine ⟨?_, ?_⟩
    · intro h
      have := h u (List.mem_append_right _ (by simp)) rfl
      rw [hc] at this; simp at this
    · intro t ht hk c' hc'
      rcases List.mem_append.mp ht with ht | ht
      · exact (hInv (keyOf u)).2 t ht hk c' hc'
      · simp at ht; subst ht
        rw [hc] at hc'
        have hcc : c' = c := (Option.some.inj hc').symm
        subst hcc
        rcases processed_or_not hTr hInv t hur hub with h | h
        · have h0 := (hInv (keyOf t)).1 h
          have hp0 : PrevSha st₀ (keyOf t) = some c'.sha := by
            simp only [PrevSha] at hprev ⊢
            rw [← h0.1]; exact hprev
          refine ⟨?_, ?_, ?_⟩
          · intro hnone; rw [hp0] at hnone; simp at hnone
          · intro _; exact ⟨h0.1, h0.2⟩
          · intro A hA hAne
            rw [hp0] at hA
            exact absurd (Option.some.inj hA).symm hAne
        · exact h c' hc
  · refine ⟨?_, ?_⟩
    · intro h
      exact (hInv k).1 (fun t ht hk => h t (List.mem_append_left _ ht) hk)
    · intro t ht hk c' hc'
      rcases List.mem_append.mp ht with ht | ht
      · exact (hInv k).2 t ht hk c' hc'
      · simp at ht; subst ht; exact absurd hk hkk

theorem Inv_step_diff {fetch : Fetcher} {now : String} {st₀ st : StateMap}
    {ups : List UpdateEvent} {tr : List Triple} (hTr : TrCF tr)
    (hInv : Inv fetch now st₀ st ups tr) {u : Triple}
    (hur : colonFreeB u.1 = true) (hub : colonFreeB u.2.1 = true)
    {c : Commit} (hc : fetchedCommit fetch u = some c)
    {A : String} (hprev : PrevSha st (keyOf u) = some A) (hA : A ≠ c.sha)
    (nm : String) :
    Inv fetch now st₀ (insertKey st (keyOf u) (mkEntry c.sha now u.2.2 u.1 u.2.1))
      (ups ++ [mkEvent nm u.1 u.2.1 u.2.2 A c]) (tr ++ [u]) := by
  have hnone : ∀ t ∈ tr, keyOf t = keyOf u → fetchedCommit fetch t = none := by
    rcases processed_or_not hTr hInv u hur hub with h | h
    · exact h
    · have hps := InvAt_prev (h c hc)
      rw [hprev] at hps
      exact absurd (Option.some.inj hps) hA
  have h0 := (hInv (keyOf u)).1 hnone
  have hp0 : PrevSha st₀ (keyOf u) = some A := by
    simp only [PrevSha] at hprev ⊢
    rw [← h0.1]; exact hprev
  have hek : eventKey (mkEvent nm u.1 u.2.1 u.2.2 A c) = keyOf u := rfl
  intro k
  by_cases hkk : keyOf u = k
  · subst hkk
    refine ⟨?_, ?_⟩
    · intro h
      have := h u (List.mem_append_right _ (by simp)) rfl
      rw [hc] at this; simp at this
    · intro t ht hk c' hc'
      rcases List.mem_append.mp ht with ht | ht
      · have := hnone t ht hk
        rw [hc'] at this; simp at this
      · simp at ht; subst ht
        rw [hc] at hc'
        have hcc : c' = c := (Option.some.inj hc').symm
        subst hcc
        refine ⟨?_, ?_, ?_⟩
        · intro hn; rw [hp0] at hn; simp at hn
        · intro hs; rw [hp0] at hs
          exact absurd (Option.some.inj hs) hA
        · intro A' hA' _
          rw [hp0] at hA'
          have hAA : A' = A := (Option.some.inj hA').symm
          subst hAA
          constructor
          · rw [lookupKey_insertKey]; simp
          · refine ⟨nm, ?_⟩
            rw [eventsFor_append, h0.2, eventsFor_single_eq hek]
            simp
  · have hlk : lookupKey (insertKey st (keyOf u) (mkEntry c.sha now u.2.2 u.1 u.2.1)) k
        = lookupKey st k := by
      rw [lookupKey_insertKey]; simp [hkk]
    have hev : eventsFor k (ups ++ [mkEvent nm u.1 u.2.1 u.2.2 A c]) = eventsFor k ups := by
      rw [eventsFor_append, eventsFor_single_ne (by rw [hek]; exact hkk)]
      simp
    refine ⟨?_, ?_⟩
    · intro h
      have h' := (hInv k).1 (fun t ht hk => h t (List.mem_append_left _ ht) hk)
      exact ⟨hlk.trans h'.1, hev.trans h'.2⟩
    · intro t ht hk c' hc'
      rcases List.mem_append.mp ht with ht | ht
      · exact InvAt_congr hlk hev ((hInv k).2 t ht hk c' hc')
      · simp at ht; subst ht; exact absurd hk hkk

theorem checkPaths_inv (fetch : Fetcher) (now : String) (st₀ : StateMap)
    (repo branch name : String)
    (hcfr : colonFreeB repo = true) (hcfb : colonFreeB branch = true) :
    ∀ (paths : List String) (st : StateMap) (ups : List UpdateEvent) (tr : List Triple),
      TrCF tr → Inv fetch now st₀ st ups tr →
      ∀ st' ups' tr',
        checkPaths fetch now repo (some branch) branch name paths st ups tr
          = .ok (st', ups', tr') →
        TrCF tr' ∧ Inv fetch now st₀ st' ups' tr' := by
  intro paths
  induction paths with
  | nil =>
    intro st ups tr hTr hInv st' ups' tr' h
    simp only [checkPaths] at h
    obtain ⟨rfl, rfl, rfl⟩ : st = st' ∧ ups = ups' ∧ tr = tr' := by simpa using h
    exact ⟨hTr, hInv⟩
  | cons p rest ih =>
    intro st ups tr hTr hInv st' ups' tr' h
    simp only [checkPaths] at h
    rcases hf : fetch repo branch p with msg | commits
    · simp only [hf] at h
      have hcn : fetchedCommit fetch (repo, branch, p) = none := by
        simp [fetchedCommit, hf]
      exact ih _ _ _ (TrCF_append hTr hcfr hcfb) (Inv_step_none hInv hcn) _ _ _ h
    · rcases commits with _ | ⟨c, cs⟩
      · simp only [hf] at h
        have hcn : fetchedCommit fetch (repo, branch, p) = none := by
          simp [fetchedCommit, hf]
        exact ih _ _ _ (TrCF_append hTr hcfr hcfb) (Inv_step_none hInv hcn) _ _ _ h
      · simp only [hf] at h
        have hcs : fetchedCommit fetch (repo, branch, p) = some c := by
          simp [fetchedCommit, hf]
        rcases hp : PrevSha st (generate_monitor_key repo branch p) with _ | prev
        · simp only [hp] at h
          exact ih _ _ _ (TrCF_append hTr hcfr hcfb)
            (Inv_step_first hTr hInv hcfr hcfb hcs hp) _ _ _ h
        · simp only [hp] at h
          by_cases hpe : prev = c.sha
          · rw [if_pos hpe] at h
            subst hpe
            exact ih _ _ _ (TrCF_append hTr hcfr hcfb)
              (Inv_step_same hTr hInv hcfr hcfb hcs hp) _ _ _ h
          · rw [if_neg hpe] at h
            exact ih _ _ _ (TrCF_append hTr hcfr hcfb)
              (Inv_step_diff hTr hInv hcfr hcfb hcs hp hpe name) _ _ _ h

theorem checkMonitors_inv (fetch : Fetcher) (now : String) (st₀ : StateMap) :
    ∀ (ms : List Monitor), (∀ m ∈ ms, monitorCF m = true) →
    ∀ (st : StateMap) (ups : List UpdateEvent) (tr : List Triple),
      TrCF tr → Inv fetch now st₀ st ups tr →
      ∀ st' ups' tr',
        checkMonitors fetch now ms st ups tr = .ok (st', ups', tr') →
        TrCF tr' ∧ Inv fetch now st₀ st' ups' tr' := by
  intro ms
  induction ms with
  | nil =>
    intro _ st ups tr hTr hInv st' ups' tr' h
    simp only [checkMonitors] at h
    obtain ⟨rfl, rfl, rfl⟩ : st = st' ∧ ups = ups' ∧ tr = tr' := by simpa using h
    exact ⟨hTr, hInv⟩
  | cons m rest ih =>
    intro hcf st ups tr hTr hInv st' ups' tr' h
    have hcfm := hcf m (by simp)
    have hcfrest := fun m' hm' => hcf m' (List.mem_cons_of_mem _ hm')
    simp only [checkMonitors] at h
    rcases hr : m.repo? with _ | repo
    · simp only [hr] at h; simp at h
    · simp only [hr] at h
      cases he : m.enabled
      · simp only [he] at h
        simp only [Bool.false_eq_true, if_false] at h
        exact ih hcfrest st ups tr hTr hInv _ _ _ h
      · simp only [he, if_true] at h
        rcases hb : m.branch? with _ | bf
        · rcases hps : m.paths with _ | ⟨p, ps⟩
          · simp only [hb, hps, checkPaths] at h
            exact ih hcfrest st ups tr hTr hInv _ _ _ h
          · simp only [hb, hps, checkPaths] at h
            simp at h
        · simp only [hb, Option.getD_some] at h
          have hcfpair : colonFreeB repo = true ∧ colonFreeB bf = true := by
            simp [monitorCF, hr, hb, Option.all] at hcfm
            exact hcfm
          rcases hcp : checkPaths fetch now repo (some bf) bf (m.name?.getD repo)
              m.paths st ups tr with e | out
          · simp only [hcp] at h; simp at h
          · obtain ⟨st₁, ups₁, tr₁⟩ := out
            simp only [hcp] at h
            obtain ⟨hTr₁, hInv₁⟩ := checkPaths_inv fetch now st₀ repo bf
              (m.name?.getD repo) hcfpair.1 hcfpair.2 m.paths st ups tr hTr hInv
              st₁ ups₁ tr₁ hcp
            exact ih hcfrest st₁ ups₁ tr₁ hTr₁ hInv₁ _ _ _ h

theorem runInv {fetch : Fetcher} {now : String} {cfg : Config} {st₀ : RunState}
    (hcf : configCF cfg = true) {res : CheckResult}
    (h : check_for_updates fetch now cfg st₀ = .ok res) :
    TrCF res.trace ∧
      Inv fetch now st₀.monitors res.state.monitors res.updates res.trace := by
  have hcf' : ∀ m ∈ cfg.monitors, monitorCF m = true := by
    intro m hm
    exact List.all_eq_true.mp hcf m hm
  simp only [check_for_updates] at h
  rcases hcm : checkMonitors fetch now cfg.monitors st₀.monitors [] [] with e | out
  · simp only [hcm] at h; simp at h
  · obtain ⟨st', ups', tr'⟩ := out
    simp only [hcm] at h
    have hres : res = ⟨ups', ⟨st', some now⟩, tr'⟩ := by
      cases h; rfl
    subst hres
    have hTr0 : TrCF ([] : List Triple) := by intro t ht; simp at ht
    exact checkMonitors_inv fetch now st₀.monitors cfg.monitors hcf'
      st₀.monitors [] [] hTr0 (Inv_base fetch now st₀.monitors) st' ups' tr' hcm

theorem checkPaths_trace (fetch : Fetcher) (now repo branch name : String) :
    ∀ (paths : List String) (st : StateMap) (ups : List UpdateEvent) (tr : List Triple)
      (st' : StateMap) (ups' : List UpdateEvent) (tr' : List Triple),
      checkPaths fetch now repo (some branch) branch name paths st ups tr
        = .ok (st', ups', tr') →
      tr' = tr ++ paths.map (fun p => (repo, branch, p)) := by
  intro paths
  induction paths with
  | nil =>
    intro st ups tr st' ups' tr' h
    simp only [checkPaths] at h
    obtain ⟨rfl, rfl, rfl⟩ : st = st' ∧ ups = ups' ∧ tr = tr' := by simpa using h
    simp
  | cons p rest ih =>
    intro st ups tr st' ups' tr' h
    simp only [checkPaths] at h
    rcases hf : fetch repo branch p with msg | commits
    · simp only [hf] at h
      simpa [List.append_assoc] using ih _ _ _ _ _ _ h
    · rcases commits with _ | ⟨c, cs⟩
      · simp only [hf] at h
        simpa [List.append_assoc] using ih _ _ _ _ _ _ h
      · simp only [hf] at h
        rcases hp : PrevSha st (generate_monitor_key repo branch p) with _ | prev
        · simp only [hp] at h
          simpa [List.append_assoc] using ih _ _ _ _ _ _ h
        · simp only [hp] at h
          by_cases hpe : prev = c.sha
          · rw [if_pos hpe] at h
            simpa [List.append_assoc] using ih _ _ _ _ _ _ h
          · rw [if_neg hpe] at h
            simpa [List.append_assoc] using ih _ _ _ _ _ _ h

theorem checkMonitors_trace (fetch : Fetcher) (now : String) :
    ∀ (ms : List Monitor) (st : StateMap) (ups : List UpdateEvent) (tr : List Triple)
      (st' : StateMap) (ups' : List UpdateEvent) (tr' : List Triple),
      checkMonitors fetch now ms st ups tr = .ok (st', ups', tr') →
      tr' = tr ++ monitorsTrace ms := by
  intro ms
  induction ms with
  | nil =>
    intro st ups tr st' ups' tr' h
    simp only [checkMonitors] at h
    obtain ⟨rfl, rfl, rfl⟩ : st = st' ∧ ups = ups' ∧ tr = tr' := by simpa using h
    simp [monitorsTrace]
  | cons m rest ih =>
    intro st ups tr st' ups' tr' h
    simp only [checkMonitors] at h
    rcases hr : m.repo? with _ | repo
    · simp only [hr] at h; simp at h
    · simp only [hr] at h
      cases he : m.enabled
      · simp only [he, Bool.false_eq_true, if_false] at h
        have := ih _ _ _ _ _ _ h
        simp [monitorsTrace, monitorTrace, he, this]
      · simp only [he, if_true] at h
        rcases hb : m.branch? with _ | bf
        · rcases hps : m.paths with _ | ⟨p, ps⟩
          · simp only [hb, hps, checkPaths] at h
            have := ih _ _ _ _ _ _ h
            simp [monitorsTrace, monitorTrace, he, hps, this]
          · simp only [hb, hps, checkPaths] at h
            simp at h
        · simp only [hb, Option.getD_some] at h
          rcases hcp : checkPaths fetch now repo (some bf) bf (m.name?.getD repo)
              m.paths st ups tr with e | out
          · simp only [hcp] at h; simp at h
          · obtain ⟨st₁, ups₁, tr₁⟩ := out
            simp only [hcp] at h
            have h₁ := checkPaths_trace fetch now repo bf (m.name?.getD repo)
              m.paths st ups tr st₁ ups₁ tr₁ hcp
            have h₂ := ih _ _ _ _ _ _ h
            subst h₁
            rw [h₂]
            simp [monitorsTrace, monitorTrace, he, hr, hb, List.append_assoc]

theorem runTrace {fetch : Fetcher} {now : String} {cfg : Config} {st₀ : RunState}
    {res : CheckResult} (h : check_for_updates fetch now cfg st₀ = .ok res) :
    res.trace = monitorsTrace cfg.monitors := by
  simp only [check_for_updates] at h
  rcases hcm : checkMonitors fetch now cfg.monitors st₀.monitors [] [] with e | out
  · simp only [hcm] at h; simp at h
  · obtain ⟨st', ups', tr'⟩ := out
    simp only [hcm] at h
    cases h
    simpa using checkMonitors_trace fetch now cfg.monitors _ _ _ _ _ _ hcm

theorem checkPaths_frame (fetch : Fetcher) (now repo branch name : String) :
    ∀ (paths : List String) (st : StateMap) (ups : List UpdateEvent) (tr : List Triple)
      (st' : StateMap) (ups' : List UpdateEvent) (tr' : List Triple),
      checkPaths fetch now repo (some branch) branch name paths st ups tr
        = .ok (st', ups', tr') →
      ∀ k, (∀ p ∈ paths, generate_monitor_key repo branch p ≠ k) →
      lookupKey st' k = lookupKey st k := by
  intro paths
  induction paths with
  | nil =>
    intro st ups tr st' ups' tr' h k _
    simp only [checkPaths] at h
    obtain ⟨rfl, rfl, rfl⟩ : st = st' ∧ ups = ups' ∧ tr = tr' := by simpa using h
    rfl
  | cons p rest ih =>
    intro st ups tr st' ups' tr' h k hk
    have hk0 : generate_monitor_key repo branch p ≠ k := hk p (by simp)
    have hkrest : ∀ q ∈ rest, generate_monitor_key repo branch q ≠ k :=
      fun q hq => hk q (by simp [hq])
    simp only [checkPaths] at h
    rcases hf : fetch repo branch p with msg | commits
    · simp only [hf] at h
      exact ih _ _ _ _ _ _ h k hkrest
    · rcases commits with _ | ⟨c, cs⟩
      · simp only [hf] at h
        exact ih _ _ _ _ _ _ h k hkrest
      · simp only [hf] at h
        rcases hp : PrevSha st (generate_monitor_key repo branch p) with _ | prev
        · simp only [hp] at h
          have := ih _ _ _ _ _ _ h k hkrest
          rw [this, lookupKey_insertKey, if_neg hk0]
        · simp only [hp] at h
          by_cases hpe : prev = c.sha
          · rw [if_pos hpe] at h
            exact ih _ _ _ _ _ _ h k hkrest
          · rw [if_neg hpe] at h
            have := ih _ _ _ _ _ _ h k hkrest
            rw [this, lookupKey_insertKey, if_neg hk0]

theorem checkMonitors_frame (fetch : Fetcher) (now : String) :
    ∀ (ms : List Monitor) (st : StateMap) (ups : List UpdateEvent) (tr : List Triple)
      (st' : StateMap) (ups' : List UpdateEvent) (tr' : List Triple),
      checkMonitors fetch now ms st ups tr = .ok (st', ups', tr') →
      ∀ k, (∀ t ∈ monitorsTrace ms, keyOf t ≠ k) →
      lookupKey st' k = lookupKey st k := by
  intro ms
  induction ms with
  | nil =>
    intro st ups tr st' ups' tr' h k _
    simp only [checkMonitors] at h
    obtain ⟨rfl, rfl, rfl⟩ : st = st' ∧ ups = ups' ∧ tr = tr' := by simpa using h
    rfl
  | cons m rest ih =>
    intro st ups tr st' ups' tr' h k hk
    have hkrest : ∀ t ∈ monitorsTrace rest, keyOf t ≠ k := by
      intro t ht
      exact hk t (by simp [monitorsTrace] at ht ⊢; exact Or.inr ht)
    simp only [checkMonitors] at h
    rcases hr : m.repo? with _ | repo
    · simp only [hr] at h; simp at h
    · simp only [hr] at h
      cases he : m.enabled
      · simp only [he, Bool.false_eq_true, if_false] at h
        exact ih _ _ _ _ _ _ h k hkrest
      · simp only [he, if_true] at h
        rcases hb : m.branch? with _ | bf
        · rcases hps : m.paths with _ | ⟨p, ps⟩
          · simp only [hb, hps, checkPaths] at h
            exact ih _ _ _ _ _ _ h k hkrest
          · simp only [hb, hps, checkPaths] at h
            simp at h
        · simp only [hb, Option.getD_some] at h
          rcases hcp : checkPaths fetch now repo (some bf) bf (m.name?.getD repo)
              m.paths st ups tr with e | out
          · simp only [hcp] at h; simp at h
          · obtain ⟨st₁, ups₁, tr₁⟩ := out
            simp only [hcp] at h
            have hkm : ∀ p ∈ m.paths, generate_monitor_key repo bf p ≠ k := by
              intro p hp
              refine hk (repo, bf, p) ?_
              simp only [monitorsTrace, List.flatMap_cons, List.mem_append]
              left
              simp [monitorTrace, he, hr, hb]
              exact hp
            have h₁ := checkPaths_frame fetch now repo bf (m.name?.getD repo)
              m.paths st ups tr st₁ ups₁ tr₁ hcp k hkm
            have h₂ := ih _ _ _ _ _ _ h k hkrest
            exact h₂.trans h₁

theorem runFrame {fetch : Fetcher} {now : String} {cfg : Config} {st₀ : RunState}
    {res : CheckResult} (h : check_for_updates fetch now cfg st₀ = .ok res)
    (k : String) (hk : ∀ t ∈ res.trace, keyOf t ≠ k) :
    lookupKey res.state.monitors k = lookupKey st₀.monitors k := by
  have htr := runTrace h
  rw [htr] at hk
  simp only [check_for_updates] at h
  rcases hcm : checkMonitors fetch now cfg.monitors st₀.monitors [] [] with e | out
  · simp only [hcm] at h; simp at h
  · obtain ⟨st', ups', tr'⟩ := out
    simp only [hcm] at h
    cases h
    exact checkMonitors_frame fetch now cfg.monitors _ _ _ _ _ _ hcm k hk

theorem checkPaths_isOk (fetch : Fetcher) (now repo branch name : String) :
    ∀ (paths : List String) (st : StateMap) (ups : List UpdateEvent) (tr : List Triple),
      ∃ out, checkPaths fetch now repo (some branch) branch name paths st ups tr
        = .ok out := by
  intro paths
  induction paths with
  | nil =>
    intro st ups tr
    exact ⟨(st, ups, tr), rfl⟩
  | cons p rest ih =>
    intro st ups tr
    simp only [checkPaths]
    split
    · exact ih _ _ _
    · exact ih _ _ _
    · split
      · exact ih _ _ _
      · split
        · exact ih _ _ _
        · exact ih _ _ _

theorem checkMonitors_ok_iff (fetch : Fetcher) (now : String) :
    ∀ (ms : List Monitor) (st : StateMap) (ups : List UpdateEvent) (tr : List Triple),
      (∃ out, checkMonitors fetch now ms st ups tr = .ok out) ↔
        ∀ m ∈ ms, monitorOk m := by
  intro ms
  induction ms with
  | nil =>
    intro st ups tr
    constructor
    · intro _ m hm; simp at hm
    · intro _; exact ⟨(st, ups, tr), rfl⟩
  | cons m rest ih =>
    intro st ups tr
    simp only [checkMonitors]
    rcases hr : m.repo? with _ | repo
    · constructor
      · rintro ⟨out, hout⟩; simp at hout
      · intro hall
        exact absurd hr (hall m (by simp)).1
    · cases he : m.enabled
      · simp only [Bool.false_eq_true, if_false]
        rw [ih st ups tr]
        constructor
        · intro hrest m' hm'
          rcases List.mem_cons.mp hm' with rfl | hm'
          · exact ⟨by simp [hr], fun hcontra => absurd hcontra (by simp [he])⟩
          · exact hrest m' hm'
        · intro hall m' hm'
          exact hall m' (List.mem_cons_of_mem _ hm')
      · simp only [if_true]
        rcases hb : m.branch? with _ | bf
        · rcases hps : m.paths with _ | ⟨p, ps⟩
          · simp only [hps, checkPaths]
            rw [ih st ups tr]
            constructor
            · intro hrest m' hm'
              rcases List.mem_cons.mp hm' with rfl | hm'
              · refine ⟨by simp [hr], ?_⟩
                intro _ hpaths
                exact absurd hps hpaths
              · exact hrest m' hm'
            · intro hall m' hm'
              exact hall m' (List.mem_cons_of_mem _ hm')
          · simp only [hps, checkPaths]
            constructor
            · rintro ⟨out, hout⟩; simp at hout
            · intro hall
              have h2 := (hall m (by simp)).2 he (by rw [hps]; simp)
              exact absurd hb h2
        · simp only [Option.getD_some]
          obtain ⟨⟨st₁, ups₁, tr₁⟩, hcp⟩ := checkPaths_isOk fetch now repo bf
            (m.name?.getD repo) m.paths st ups tr
          simp only [hcp]
          rw [ih st₁ ups₁ tr₁]
          constructor
          · intro hrest m' hm'
            rcases List.mem_cons.mp hm' with rfl | hm'
            · exact ⟨by simp [hr], fun _ _ => by simp [hb]⟩
            · exact hrest m' hm'
          · intro hall m' hm'
            exact hall m' (List.mem_cons_of_mem _ hm')

theorem runOk_iff (fetch : Fetcher) (now : String) (cfg : Config) (st₀ : RunState) :
    runOk (check_for_updates fetch now cfg st₀) = true ↔
      ∀ m ∈ cfg.monitors, monitorOk m := by
  simp only [check_for_updates]
  rcases hcm : checkMonitors fetch now cfg.monitors st₀.monitors [] [] with e | out
  · constructor
    · intro hcontra; simp [runOk] at hcontra
    · intro hall
      obtain ⟨out, hout⟩ :=
        (checkMonitors_ok_iff fetch now cfg.monitors st₀.monitors [] []).mpr hall
      rw [hcm] at hout
      simp at hout
  · obtain ⟨st', ups', tr'⟩ := out
    constructor
    · intro _
      exact (checkMonitors_ok_iff fetch now cfg.monitors st₀.monitors [] []).mp ⟨_, hcm⟩
    · intro _; simp [runOk]

theorem run_ok_monitors {fetch : Fetcher} {now : String} {cfg : Config}
    {st₀ : RunState} {res : CheckResult}
    (h : check_for_updates fetch now cfg st₀ = .ok res) :
    ∀ m ∈ cfg.monitors, monitorOk m := by
  apply (runOk_iff fetch now cfg st₀).mp
  rw [h]; rfl

theorem run_exists {fetch : Fetcher} {now : String} {cfg : Config} {st₀ : RunState}
    (hall : ∀ m ∈ cfg.monitors, monitorOk m) :
    ∃ res, check_for_updates fetch now cfg st₀ = .ok res := by
  have hro := (runOk_iff fetch now cfg st₀).mpr hall
  rcases hv : check_for_updates fetch now cfg st₀ with e | r
  · rw [hv] at hro; simp [runOk] at hro
  · exact ⟨r, rfl⟩

theorem checkPaths_good (fetch : Fetcher) (now repo branch name : String) :
    ∀ (paths : List String) (st : StateMap) (ups : List UpdateEvent) (tr : List Triple),
      (∀ p ∈ paths, ∀ c : Commit, fetchedCommit fetch (repo, branch, p) = some c →
        PrevSha st (generate_monitor_key repo branch p) = some c.sha) →
      checkPaths fetch now repo (some branch) branch name paths st ups tr
        = .ok (st, ups, tr ++ paths.map (fun p => (repo, branch, p))) := by
  intro paths
  induction paths with
  | nil =>
    intro st ups tr _
    simp [checkPaths]
  | cons p rest ih =>
    intro st ups tr hG
    have hGrest : ∀ q ∈ rest, ∀ c : Commit, fetchedCommit fetch (repo, branch, q) = some c →
        PrevSha st (generate_monitor_key repo branch q) = some c.sha :=
      fun q hq => hG q (by simp [hq])
    simp only [checkPaths]
    rcases hf : fetch repo branch p with msg | commits
    · rw [ih st ups _ hGrest]
      simp [List.append_assoc]
    · rcases commits with _ | ⟨c, cs⟩
      · rw [ih st ups _ hGrest]
        simp [List.append_assoc]
      · have hps := hG p (by simp) c (by simp [fetchedCommit, hf])
        simp only [hps, if_pos rfl]
        rw [ih st ups _ hGrest]
        simp [List.append_assoc]

theorem checkMonitors_good (fetch : Fetcher) (now : String) :
    ∀ (ms : List Monitor) (st : StateMap) (ups : List UpdateEvent) (tr : List Triple),
      (∀ m ∈ ms, monitorOk m) →
      (∀ t ∈ monitorsTrace ms, ∀ c : Commit, fetchedCommit fetch t = some c →
        PrevSha st (keyOf t) = some c.sha) →
      checkMonitors fetch now ms st ups tr = .ok (st, ups, tr ++ monitorsTrace ms) := by
  intro ms
  induction ms with
  | nil =>
    intro st ups tr _ _
    simp [checkMonitors, monitorsTrace]
  | cons m rest ih =>
    intro st ups tr hOk hG
    have hOkm := hOk m (by simp)
    have hOkrest : ∀ m' ∈ rest, monitorOk m' :=
      fun m' hm' => hOk m' (List.mem_cons_of_mem _ hm')
    have hGrest : ∀ t ∈ monitorsTrace rest, ∀ c : Commit, fetchedCommit fetch t = some c →
        PrevSha st (keyOf t) = some c.sha := by
      intro t ht
      refine hG t ?_
      simp only [monitorsTrace, List.flatMap_cons, List.mem_append]
      right
      simpa [monitorsTrace] using ht
    simp only [checkMonitors]
    rcases hr : m.repo? with _ | repo
    · exact absurd hr hOkm.1
    · cases he : m.enabled
      · simp only [Bool.false_eq_true, if_false]
        rw [ih st ups tr hOkrest hGrest]
        simp [monitorsTrace, monitorTrace, he]
      · simp only [if_true]
        rcases hb : m.branch? with _ | bf
        · rcases hps : m.paths with _ | ⟨p, ps⟩
          · simp only [hps, checkPaths]
            rw [ih st ups tr hOkrest hGrest]
            simp [monitorsTrace, monitorTrace, he, hps]
          · exact absurd hb (hOkm.2 he (by rw [hps]; simp))
        · simp only [Option.getD_some]
          have hGm : ∀ p ∈ m.paths, ∀ c : Commit,
              fetchedCommit fetch (repo, bf, p) = some c →
              PrevSha st (generate_monitor_key repo bf p) = some c.sha := by
            intro p hp c hc
            refine hG (repo, bf, p) ?_ c hc
            simp only [monitorsTrace, List.flatMap_cons, List.mem_append]
            left
            simp [monitorTrace, he, hr, hb]
            exact hp
          simp only [checkPaths_good fetch now repo bf (m.name?.getD repo)
            m.paths st ups tr hGm]
          rw [ih st ups _ hOkrest hGrest]
          simp [monitorsTrace, monitorTrace, he, hr, hb, List.append_assoc]

theorem run_good {fetch : Fetcher} {now : String} {cfg : Config} {st₀ : RunState}
    (hOk : ∀ m ∈ cfg.monitors, monitorOk m)
    (hG : GoodState fetch cfg st₀.monitors) :
    check_for_updates fetch now cfg st₀
      = .ok ⟨[], ⟨st₀.monitors, some now⟩, monitorsTrace cfg.monitors⟩ := by
  simp only [check_for_updates]
  rw [checkMonitors_good fetch now cfg.monitors st₀.monitors [] [] hOk hG]
  simp

theorem run_good_after {fetch : Fetcher} {now : String} {cfg : Config}
    {st₀ : RunState} {res : CheckResult} (hcf : configCF cfg = true)
    (h : check_for_updates fetch now cfg st₀ = .ok res) :
    GoodState fetch cfg res.state.monitors := by
  obtain ⟨_, hInv⟩ := runInv hcf h
  intro t ht c hc
  rw [← runTrace h] at ht
  exact InvAt_prev ((hInv (keyOf t)).2 t ht rfl c hc)

theorem run_at_most_one_event {fetch : Fetcher} {now : String} {cfg : Config}
    {st₀ : RunState} {res : CheckResult} (hcf : configCF cfg = true)
    (h : check_for_updates fetch now cfg st₀ = .ok res) (k : String) :
    (eventsFor k res.updates).length ≤ 1 := by
  obtain ⟨_, hInv⟩ := runInv hcf h
  by_cases hex : ∃ t ∈ res.trace, keyOf t = k ∧ fetchedCommit fetch t ≠ none
  · obtain ⟨t, ht, hk, hne⟩ := hex
    rcases hc : fetchedCommit fetch t with _ | c
    · exact absurd hc hne
    · have hIA := (hInv k).2 t ht hk c hc
      rcases hp : PrevSha st₀.monitors k with _ | A
      · rw [(hIA.1 hp).2]; simp
      · by_cases hA : A = c.sha
        · subst hA
          rw [(hIA.2.1 hp).2]; simp
        · obtain ⟨_, nm, hev⟩ := hIA.2.2 A hp hA
          rw [hev]; simp
  · have hnone : ∀ t ∈ res.trace, keyOf t = k → fetchedCommit fetch t = none := by
      intro t ht hk
      by_contra hne
      exact hex ⟨t, ht, hk, hne⟩
    rw [((hInv k).1 hnone).2]; simp

/-- Claim C1 (first-observation suppression): in a configuration whose repo
and branch fields are colon-free (so watch keys identify triples, as the
spec's WatchKey notion presumes), for every watch key absent from the prior
state, if a checked triple with that key fetched successfully with at least
one commit, then the completed pass records the key in the new state with
the fetched identifier, and the run's update list holds zero events for
that key — however many monitor entries named the same key. -/
theorem C1_first_observation (fetch : Fetcher) (now : String) (cfg : Config)
    (st₀ : RunState) (res : CheckResult)
    (hcf : configCF cfg = true)
    (h : check_for_updates fetch now cfg st₀ = .ok res)
    (k : String) (habs : lookupKey st₀.monitors k = none)
    (t : Triple) (ht : t ∈ res.trace) (hk : keyOf t = k)
    (c : Commit) (hc : fetchedCommit fetch t = some c) :
    lookupKey res.state.monitors k = some (mkEntry c.sha now t.2.2 t.1 t.2.1) ∧
    eventsFor k res.updates = [] := by
  obtain ⟨_, hInv⟩ := runInv hcf h
  have hIA := (hInv k).2 t ht hk c hc
  have hprev : PrevSha st₀.monitors k = none := by simp [PrevSha, habs]
  exact hIA.1 hprev

/-- Witness for C1 at a concrete one-monitor run from the empty state. -/
theorem C1_witness :
    lookupKey [(("o/r:main:f"), mkEntry ("aaa") ("T") ("f") ("o/r") ("main"))]
        (keyOf ((("o/r"), ("main"), ("f"))))
      = some (mkEntry ("aaa") ("T") ("f") ("o/r") ("main")) ∧
    eventsFor (keyOf ((("o/r"), ("main"), ("f")))) [] = [] :=
  C1_first_observation fetchA ("T")
    ⟨[⟨some ("o/r"), some ("main"), some ("N"), true, [("f")], []⟩]⟩
    ⟨[], none⟩
    ⟨[], ⟨[(("o/r:main:f"), mkEntry ("aaa") ("T") ("f") ("o/r") ("main"))], some ("T")⟩,
      [(("o/r"), ("main"), ("f"))]⟩
    (by decide) rfl (keyOf ((("o/r"), ("main"), ("f")))) (by decide)
    ((("o/r"), ("main"), ("f"))) (by decide) rfl
    ⟨("aaa"), ("m"), ("d"), ("a")⟩ (by decide)

/-- Claim C2 (change detection): in a colon-free configuration, for every
checked triple whose prior stored identifier is A and whose fetch succeeds
with head commit c, c.sha ≠ A, the completed pass's update list holds
exactly one event for that watch key, carrying old A, new c.sha, the commit
message's first line, author, date and the three derived URLs, and the new
state stores c.sha for that key. -/
theorem C2_change_detection (fetch : Fetcher) (now : String) (cfg : Config)
    (st₀ : RunState) (res : CheckResult)
    (hcf : configCF cfg = true)
    (h : check_for_updates fetch now cfg st₀ = .ok res)
    (t : Triple) (ht : t ∈ res.trace)
    (c : Commit) (hc : fetchedCommit fetch t = some c)
    (A : String) (hprev : PrevSha st₀.monitors (keyOf t) = some A)
    (hne : A ≠ c.sha) :
    (∃ e, eventsFor (keyOf t) res.updates = [e] ∧
      e.old_sha = A ∧ e.new_sha = c.sha ∧
      e.repo = t.1 ∧ e.branch = t.2.1 ∧ e.path = t.2.2 ∧
      e.commit_message = firstLine c.message ∧
      e.commit_date = c.date ∧ e.commit_author = c.author ∧
      e.compare_url = ("https://github.com/") ++ t.1 ++ ("/compare/") ++ A.take 7
        ++ ("...") ++ c.sha.take 7 ∧
      e.commit_url = ("https://github.com/") ++ t.1 ++ ("/commit/") ++ c.sha ∧
      e.file_url = ("https://github.com/") ++ t.1 ++ ("/blob/") ++ t.2.1 ++ ("/") ++ t.2.2) ∧
    (∃ en, lookupKey res.state.monitors (keyOf t) = some en ∧
      en.last_sha = some c.sha) := by
  obtain ⟨_, hInv⟩ := runInv hcf h
  have hIA := (hInv (keyOf t)).2 t ht rfl c hc
  obtain ⟨hlk, nm, hev⟩ := hIA.2.2 A hprev hne
  constructor
  · exact ⟨mkEvent nm t.1 t.2.1 t.2.2 A c, hev,
      rfl, rfl, rfl, rfl, rfl, rfl, rfl, rfl, rfl, rfl, rfl⟩
  · exact ⟨mkEntry c.sha now t.2.2 t.1 t.2.1, hlk, rfl⟩

/-- Witness for C2 at a concrete run whose prior sha bbb differs from the
fetched sha aaa. -/
theorem C2_witness :
    (∃ e, eventsFor (keyOf ((("o/r"), ("main"), ("f"))))
        [mkEvent ("N") ("o/r") ("main") ("f") ("bbb") ⟨("aaa"), ("m"), ("d"), ("a")⟩]
        = [e] ∧
      e.old_sha = ("bbb") ∧ e.new_sha = ("aaa") ∧
      e.repo = ("o/r") ∧ e.branch = ("main") ∧ e.path = ("f") ∧
      e.commit_message = firstLine ("m") ∧
      e.commit_date = ("d") ∧ e.commit_author = ("a") ∧
      e.compare_url = ("https://github.com/") ++ ("o/r") ++ ("/compare/")
        ++ ("bbb").take 7 ++ ("...") ++ ("aaa").take 7 ∧
      e.commit_url = ("https://github.com/") ++ ("o/r") ++ ("/commit/") ++ ("aaa") ∧
      e.file_url = ("https://github.com/") ++ ("o/r") ++ ("/blob/") ++ ("main")
        ++ ("/") ++ ("f")) ∧
    (∃ en, lookupKey [(("o/r:main:f"), mkEntry ("aaa") ("T") ("f") ("o/r") ("main"))]
        (keyOf ((("o/r"), ("main"), ("f")))) = some en ∧
      en.last_sha = some ("aaa")) :=
  C2_change_detection fetchA ("T")
    ⟨[⟨some ("o/r"), some ("main"), some ("N"), true, [("f")], []⟩]⟩
    ⟨[(("o/r:main:f"), mkEntry ("bbb") ("t0") ("f") ("o/r") ("main"))], none⟩
    ⟨[mkEvent ("N") ("o/r") ("main") ("f") ("bbb") ⟨("aaa"), ("m"), ("d"), ("a")⟩],
      ⟨[(("o/r:main:f"), mkEntry ("aaa") ("T") ("f") ("o/r") ("main"))], some ("T")⟩,
      [(("o/r"), ("main"), ("f"))]⟩
    (by decide) rfl
    ((("o/r"), ("main"), ("f"))) (by decide)
    ⟨("aaa"), ("m"), ("d"), ("a")⟩ (by decide)
    ("bbb") (by decide) (by decide)

/-- Claim C9 (stale-key frame property): a watch key not named by any fetch
of the run has the same snapshot entry in the new state as in the prior
state — the pass never deletes or rewrites entries for keys it did not
check. -/
theorem C9_stale_key_frame (fetch : Fetcher) (now : String) (cfg : Config)
    (st₀ : RunState) (res : CheckResult)
    (h : check_for_updates fetch now cfg st₀ = .ok res)
    (k : String) (hk : ∀ t ∈ res.trace, keyOf t ≠ k) :
    lookupKey res.state.monitors k = lookupKey st₀.monitors k :=
  runFrame h k hk

/-- Witness for C9: a stale key of the prior state survives a run that
checks a different key. -/
theorem C9_witness :
    lookupKey [(("stale:key:x"), mkEntry ("s") ("t0") ("p") ("r") ("b")),
        (("o/r:main:f"), mkEntry ("aaa") ("T") ("f") ("o/r") ("main"))]
        (("stale:key:x"))
      = lookupKey [(("stale:key:x"), mkEntry ("s") ("t0") ("p") ("r") ("b"))]
        (("stale:key:x")) :=
  C9_stale_key_frame fetchA ("T")
    ⟨[⟨some ("o/r"), some ("main"), some ("N"), true, [("f")], []⟩]⟩
    ⟨[(("stale:key:x"), mkEntry ("s") ("t0") ("p") ("r") ("b"))], none⟩
    ⟨[], ⟨[(("stale:key:x"), mkEntry ("s") ("t0") ("p") ("r") ("b")),
        (("o/r:main:f"), mkEntry ("aaa") ("T") ("f") ("o/r") ("main"))], some ("T")⟩,
      [(("o/r"), ("main"), ("f"))]⟩
    rfl (("stale:key:x")) (by decide)

/-- Claim C5 (no-change idempotence): in a colon-free configuration, a
checked key whose prior stored identifier equals the fetched identifier
contributes zero events; and after any completed pass, running detection
twice more with the same fetcher (an unchanged remote) completes both times
with zero events. -/
theorem C5_no_change_idempotence (fetch : Fetcher) (now now1 now2 : String)
    (cfg : Config) (st₀ : RunState) (res : CheckResult)
    (hcf : configCF cfg = true)
    (h : check_for_updates fetch now cfg st₀ = .ok res) :
    (∀ t ∈ res.trace, ∀ c : Commit, fetchedCommit fetch t = some c →
      PrevSha st₀.monitors (keyOf t) = some c.sha →
      eventsFor (keyOf t) res.updates = []) ∧
    (∃ res1 res2,
      check_for_updates fetch now1 cfg res.state = .ok res1 ∧ res1.updates = [] ∧
      check_for_updates fetch now2 cfg res1.state = .ok res2 ∧ res2.updates = []) := by
  obtain ⟨_, hInv⟩ := runInv hcf h
  constructor
  · intro t ht c hc hp
    have hIA := (hInv (keyOf t)).2 t ht rfl c hc
    exact (hIA.2.1 hp).2
  · have hOk := run_ok_monitors h
    have hG1 := run_good_after hcf h
    exact ⟨⟨[], ⟨res.state.monitors, some now1⟩, monitorsTrace cfg.monitors⟩,
      ⟨[], ⟨res.state.monitors, some now2⟩, monitorsTrace cfg.monitors⟩,
      @run_good fetch now1 cfg res.state hOk hG1, rfl,
      @run_good fetch now2 cfg ⟨res.state.monitors, some now1⟩ hOk hG1, rfl⟩

/-- Witness for C5 at a concrete one-monitor run whose state already holds
the fetched sha. -/
theorem C5_witness :
    (∀ t ∈ [((("o/r"), ("main"), ("f")))], ∀ c : Commit,
      fetchedCommit fetchA t = some c →
      PrevSha [(("o/r:main:f"), mkEntry ("aaa") ("t0") ("f") ("o/r") ("main"))]
        (keyOf t) = some c.sha →
      eventsFor (keyOf t) [] = []) ∧
    (∃ res1 res2,
      check_for_updates fetchA ("T1")
        ⟨[⟨some ("o/r"), some ("main"), some ("N"), true, [("f")], []⟩]⟩
        ⟨[(("o/r:main:f"), mkEntry ("aaa") ("t0") ("f") ("o/r") ("main"))], some ("T")⟩
        = .ok res1 ∧
      res1.updates = [] ∧
      check_for_updates fetchA ("T2")
        ⟨[⟨some ("o/r"), some ("main"), some ("N"), true, [("f")], []⟩]⟩
        res1.state = .ok res2 ∧
      res2.updates = []) :=
  C5_no_change_idempotence fetchA ("T") ("T1") ("T2")
    ⟨[⟨some ("o/r"), some ("main"), some ("N"), true, [("f")], []⟩]⟩
    ⟨[(("o/r:main:f"), mkEntry ("aaa") ("t0") ("f") ("o/r") ("main"))], none⟩
    ⟨[], ⟨[(("o/r:main:f"), mkEntry ("aaa") ("t0") ("f") ("o/r") ("main"))], some ("T")⟩,
      [(("o/r"), ("main"), ("f"))]⟩
    (by decide) rfl

/-- Claim C3 counterexample: two distinct monitor entries (names A and B)
resolve to the same (repo, branch, path) triple and the run fetches that
triple twice, not once — check_for_updates has no de-duplication set, so
the claimed single fetch per key is false. -/
theorem C3_counterexample :
    (traceOf (check_for_updates fetchA ("T")
      ⟨[⟨some ("o/r"), some ("main"), some ("A"), true, [("f")], []⟩,
        ⟨some ("o/r"), some ("main"), some ("B"), true, [("f")], []⟩]⟩
      ⟨[], none⟩)).count ((("o/r"), ("main"), ("f"))) = 2 := by decide

/-- Claim C3 amended: one fetch occurs per enabled monitor-entry path
occurrence — the run's fetch trace is exactly the concatenation of the
enabled monitors' path lists, so a triple reachable from two entries is
fetched twice — while, in a colon-free configuration, at most one
UpdateEvent is produced per watch key per run. -/
theorem C3_dedup_amended (fetch : Fetcher) (now : String) (cfg : Config)
    (st₀ : RunState) (res : CheckResult)
    (hcf : configCF cfg = true)
    (h : check_for_updates fetch now cfg st₀ = .ok res) :
    res.trace = monitorsTrace cfg.monitors ∧
    ∀ k : String, (eventsFor k res.updates).length ≤ 1 :=
  ⟨runTrace h, fun k => run_at_most_one_event hcf h k⟩

/-- Witness for C3's amended statement at the duplicated-entry run. -/
theorem C3_witness :
    ([(("o/r"), ("main"), ("f")), (("o/r"), ("main"), ("f"))] : List Triple)
      = monitorsTrace
        [⟨some ("o/r"), some ("main"), some ("A"), true, [("f")], []⟩,
         ⟨some ("o/r"), some ("main"), some ("B"), true, [("f")], []⟩] ∧
    ∀ k : String, (eventsFor k ([] : List UpdateEvent)).length ≤ 1 :=
  C3_dedup_amended fetchA ("T")
    ⟨[⟨some ("o/r"), some ("main"), some ("A"), true, [("f")], []⟩,
      ⟨some ("o/r"), some ("main"), some ("B"), true, [("f")], []⟩]⟩
    ⟨[], none⟩
    ⟨[], ⟨[(("o/r:main:f"), mkEntry ("aaa") ("T") ("f") ("o/r") ("main"))], some ("T")⟩,
      [(("o/r"), ("main"), ("f")), (("o/r"), ("main"), ("f"))]⟩
    (by decide) rfl

/-- Claim C4 counterexample: a monitor entry lacking the repo field makes
the whole detection pass abort (the Python code indexes monitor with repo
at lines 113 and 116, raising KeyError), so the remaining well-formed
monitor is never checked — the entry is not skipped with a warning. -/
theorem C4_counterexample :
    check_for_updates fetchA ("T")
      ⟨[⟨none, some ("main"), some ("X"), true, [("f")], []⟩,
        ⟨some ("o/r"), some ("main"), some ("Y"), true, [("g")], []⟩]⟩
      ⟨[], none⟩ = .error () := rfl

/-- Claim C4 amended: per-path fetch failures and empty commit lists never
abort the run — whether the pass completes depends only on the
configuration, not on the fetcher or the state: it completes exactly when
every monitor has a repo field and every enabled monitor with paths has a
branch field; a monitor violating this aborts the entire pass. -/
theorem C4_error_isolation_amended (fetch : Fetcher) (now : String)
    (cfg : Config) (st₀ : RunState) :
    runOk (check_for_updates fetch now cfg st₀) = true ↔
      ∀ m ∈ cfg.monitors, monitorOk m :=
  runOk_iff fetch now cfg st₀

/-- Witness for C4's amended statement: a run whose every fetch fails still
completes. -/
theorem C4_witness :
    runOk (check_for_updates (fun _ _ _ => FetchResult.failure ("boom")) ("T")
      ⟨[⟨some ("o/r"), some ("main"), some ("N"), true, [("f")], []⟩]⟩
      ⟨[], none⟩) = true :=
  (C4_error_isolation_amended (fun _ _ _ => FetchResult.failure ("boom")) ("T")
    ⟨[⟨some ("o/r"), some ("main"), some ("N"), true, [("f")], []⟩]⟩
    ⟨[], none⟩).mpr (by decide)

/-- Claim C6 counterexample: a monitor supplying vars lang to fr and path
locales/\x7blang\x7d/app.json is checked at the verbatim path — the run
never fetches the substituted path locales/fr/app.json, refuting the
claimed placeholder rewriting (check_updates.py never reads vars). -/
theorem C6_counterexample :
    traceOf (check_for_updates fetchA ("T")
        ⟨[⟨some ("o/r"), some ("main"), some ("N"), true,
          [("locales/\x7blang\x7d/app.json")], [(("lang"), ("fr"))]⟩]⟩
        ⟨[], none⟩)
      = [(("o/r"), ("main"), ("locales/\x7blang\x7d/app.json"))] ∧
    (("o/r"), ("main"), ("locales/fr/app.json")) ∉
      traceOf (check_for_updates fetchA ("T")
        ⟨[⟨some ("o/r"), some ("main"), some ("N"), true,
          [("locales/\x7blang\x7d/app.json")], [(("lang"), ("fr"))]⟩]⟩
        ⟨[], none⟩) := by decide

/-- Claim C6 amended: the vars mapping is ignored — the detection pass is
invariant under replacing every monitor's vars — and each enabled monitor's
configured paths are fetched verbatim, with no placeholder substitution. -/
theorem C6_path_templating_amended (fetch : Fetcher) (now : String)
    (cfg : Config) (st₀ : RunState) (v : List (String × String)) :
    check_for_updates fetch now ⟨cfg.monitors.map (setVars v)⟩ st₀
      = check_for_updates fetch now cfg st₀ ∧
    (∀ res, check_for_updates fetch now cfg st₀ = .ok res →
      res.trace = monitorsTrace cfg.monitors) := by
  constructor
  · have hsv : ∀ (ms : List Monitor) (st : StateMap) (ups : List UpdateEvent)
        (tr : List Triple),
        checkMonitors fetch now (ms.map (setVars v)) st ups tr
          = checkMonitors fetch now ms st ups tr := by
      intro ms
      induction ms with
      | nil => intro st ups tr; rfl
      | cons m rest ih =>
        intro st ups tr
        have h1 : (setVars v m).repo? = m.repo? := rfl
        have h2 : (setVars v m).branch? = m.branch? := rfl
        have h3 : (setVars v m).name? = m.name? := rfl
        have h4 : (setVars v m).enabled = m.enabled := rfl
        have h5 : (setVars v m).paths = m.paths := rfl
        simp only [List.map_cons, checkMonitors, h1, h2, h3, h4, h5]
        rcases hr : m.repo? with _ | repo
        · rfl
        · cases he : m.enabled
          · simp only [Bool.false_eq_true, if_false]
            exact ih st ups tr
          · simp only [if_true]
            rcases hcp : checkPaths fetch now repo m.branch? (m.branch?.getD ("main"))
                (m.name?.getD repo) m.paths st ups tr with e | out
            · simp only [hcp]
            · obtain ⟨a, b, c⟩ := out
              simp only [hcp]
              exact ih a b c
    simp only [check_for_updates]
    rw [hsv]
  · intro res hres
    exact runTrace hres

/-- Witness for C6's amended statement: the concrete vars-carrying run of
the counterexample equals the same run with vars removed, and its trace is
the verbatim path list. -/
theorem C6_witness :
    check_for_updates fetchA ("T")
        ⟨[⟨some ("o/r"), some ("main"), some ("N"), true,
          [("locales/\x7blang\x7d/app.json")], [(("lang"), ("fr"))]⟩]⟩
        ⟨[], none⟩
      = check_for_updates fetchA ("T")
        ⟨[⟨some ("o/r"), some ("main"), some ("N"), true,
          [("locales/\x7blang\x7d/app.json")], []⟩]⟩
        ⟨[], none⟩ ∧
    (∀ res, check_for_updates fetchA ("T")
        ⟨[⟨some ("o/r"), some ("main"), some ("N"), true,
          [("locales/\x7blang\x7d/app.json")], []⟩]⟩
        ⟨[], none⟩ = .ok res →
      res.trace = monitorsTrace
        [⟨some ("o/r"), some ("main"), some ("N"), true,
          [("locales/\x7blang\x7d/app.json")], []⟩]) :=
  C6_path_templating_amended fetchA ("T")
    ⟨[⟨some ("o/r"), some ("main"), some ("N"), true,
      [("locales/\x7blang\x7d/app.json")], []⟩]⟩
    ⟨[], none⟩ [(("lang"), ("fr"))]

/-- Claim C7 counterexample: a monitor for repo owner/project without a
name field produces an event whose display name is the full string
owner/project, not the last path segment project (line 118 defaults name
to repo, not to its last segment). -/
theorem C7_counterexample :
    (updatesOf (check_for_updates fetchA ("T")
      ⟨[⟨some ("owner/project"), some ("main"), none, true, [("f")], []⟩]⟩
      ⟨[(("owner/project:main:f"),
        mkEntry ("bbb") ("t0") ("f") ("owner/project") ("main"))], none⟩)).map
      (fun e => e.name) = [("owner/project")] ∧
    ("owner/project") ≠ ("project") := by decide

/-- Claim C7 amended: when the name field is absent the display name in
events is the full repo identifier; the branch local does default to main,
but generate_monitor_key reads the raw branch field, so an enabled monitor
with a nonempty path list and no branch field aborts the run — the branch
default never reaches a checked path. -/
theorem C7_name_default_amended (fetch : Fetcher) (now r b p A : String)
    (c : Commit) (cs : List Commit) (stm : StateMap) (lc : Option String)
    (hfetch : fetch r b p = FetchResult.success (c :: cs))
    (hprev : PrevSha stm (generate_monitor_key r b p) = some A)
    (hne : A ≠ c.sha) :
    (∃ res, check_for_updates fetch now
        ⟨[⟨some r, some b, none, true, [p], []⟩]⟩ ⟨stm, lc⟩ = .ok res ∧
      res.updates.map (fun e => e.name) = [r]) ∧
    check_for_updates fetch now
      ⟨[⟨some r, none, none, true, [p], []⟩]⟩ ⟨stm, lc⟩ = .error () := by
  constructor
  · refine ⟨⟨[mkEvent r r b p A c],
      ⟨insertKey stm (generate_monitor_key r b p) (mkEntry c.sha now p r b), some now⟩,
      [(r, b, p)]⟩, ?_, rfl⟩
    simp only [check_for_updates, checkMonitors, checkPaths, Option.getD_some,
      hfetch, hprev, if_true]
    rw [if_neg hne]
    simp
  · rfl

/-- Witness for C7's amended statement at a concrete monitor for repo
owner/project. -/
theorem C7_witness :
    (∃ res, check_for_updates fetchA ("T")
        ⟨[⟨some ("owner/project"), some ("main"), none, true, [("f")], []⟩]⟩
        ⟨[(("owner/project:main:f"),
          mkEntry ("bbb") ("t0") ("f") ("owner/project") ("main"))], none⟩ = .ok res ∧
      res.updates.map (fun e => e.name) = [("owner/project")]) ∧
    check_for_updates fetchA ("T")
      ⟨[⟨some ("owner/project"), none, none, true, [("f")], []⟩]⟩
      ⟨[(("owner/project:main:f"),
        mkEntry ("bbb") ("t0") ("f") ("owner/project") ("main"))], none⟩ = .error () :=
  C7_name_default_amended fetchA ("T") ("owner/project") ("main") ("f") ("bbb")
    ⟨("aaa"), ("m"), ("d"), ("a")⟩ []
    [(("owner/project:main:f"), mkEntry ("bbb") ("t0") ("f") ("owner/project") ("main"))]
    none rfl (by decide) (by decide)

/-- Claim C8 counterexample: a configuration with one (repo-less) monitor
is nonempty, yet the process exits 1 — the detection pass aborts with an
uncaught KeyError — refuting that a nonzero exit occurs only when no
monitors are configured. -/
theorem C8_counterexample :
    mainExitCode fetchA ("T")
      (FileOnDisk.valid ⟨[⟨none, some ("main"), some ("X"), true, [("f")], []⟩]⟩)
      (FileOnDisk.valid ⟨[], none⟩) = 1 ∧
    ([⟨none, some ("main"), some ("X"), true, [("f")], []⟩] : List Monitor) ≠ [] := by
  decide

/-- Claim C8 amended: the process exits 0 exactly when the loaded
configuration has at least one monitor and every monitor has the fields the
detection loop needs (repo, and branch when enabled with paths); it exits 1
when no monitors are configured and also when the detection pass aborts. A
run that completes detection always exits 0, with zero or many updates. -/
theorem C8_exit_behavior_amended (fetch : Fetcher) (now : String)
    (cf : FileOnDisk Config) (sf : FileOnDisk RunState) :
    mainExitCode fetch now cf sf = 0 ↔
      ((load_json_file emptyConfig cf).monitors ≠ [] ∧
       ∀ m ∈ (load_json_file emptyConfig cf).monitors, monitorOk m) := by
  simp only [mainExitCode]
  by_cases hemp : (load_json_file emptyConfig cf).monitors.isEmpty = true
  · rw [if_pos hemp]
    rw [List.isEmpty_iff] at hemp
    constructor
    · intro hcontra; simp at hcontra
    · intro hrhs; exact absurd hemp hrhs.1
  · rw [if_neg hemp]
    rw [List.isEmpty_iff] at hemp
    rcases hv : check_for_updates fetch now (load_json_file emptyConfig cf)
        (load_json_file emptyState sf) with e | r
    · constructor
      · intro hcontra; simp at hcontra
      · intro hrhs
        obtain ⟨res, hres⟩ := @run_exists fetch now (load_json_file emptyConfig cf)
          (load_json_file emptyState sf) hrhs.2
        rw [hv] at hres
        simp at hres
    · constructor
      · intro _
        exact ⟨hemp, run_ok_monitors hv⟩
      · intro _; rfl

/-- Witness for C8's amended statement: a well-formed one-monitor
configuration exits 0. -/
theorem C8_witness :
    mainExitCode fetchA ("T")
      (FileOnDisk.valid ⟨[⟨some ("o/r"), some ("main"), some ("N"), true, [("f")], []⟩]⟩)
      (FileOnDisk.valid ⟨[], none⟩) = 0 :=
  (C8_exit_behavior_amended fetchA ("T")
    (FileOnDisk.valid ⟨[⟨some ("o/r"), some ("main"), some ("N"), true, [("f")], []⟩]⟩)
    (FileOnDisk.valid ⟨[], none⟩)).mpr (by decide)

/-- Claim C10 (corrupt JSON handling): load_json_file returns the empty
document for a syntactically invalid file exactly as for an absent one; a
corrupt config file therefore makes the process exit 1, exactly as an
absent one; and with a corrupt state file every completed pass (over a
colon-free configuration) emits zero events and every entry of the new
state is a fresh first-observation baseline built from its fetched
commit. -/
theorem C10_corrupt_json (fetch : Fetcher) (now : String) :
    (∀ (α : Type) (e : α), load_json_file e FileOnDisk.corrupt = e ∧
      load_json_file e FileOnDisk.corrupt = load_json_file e FileOnDisk.absent) ∧
    (∀ sf : FileOnDisk RunState,
      mainExitCode fetch now FileOnDisk.corrupt sf = 1 ∧
      mainExitCode fetch now FileOnDisk.corrupt sf
        = mainExitCode fetch now FileOnDisk.absent sf) ∧
    (∀ (cfg : Config) (res : CheckResult), configCF cfg = true →
      check_for_updates fetch now cfg (load_json_file emptyState FileOnDisk.corrupt)
        = .ok res →
      res.updates = [] ∧
      ∀ k en, lookupKey res.state.monitors k = some en →
        ∃ t c, t ∈ res.trace ∧ keyOf t = k ∧ fetchedCommit fetch t = some c ∧
          en = mkEntry c.sha now t.2.2 t.1 t.2.1) := by
  refine ⟨fun α e => ⟨rfl, rfl⟩, fun sf => ⟨rfl, rfl⟩, ?_⟩
  intro cfg res hcf h
  obtain ⟨_, hInv⟩ := runInv hcf h
  have hupdates : res.updates = [] := by
    by_contra hne
    obtain ⟨e, he⟩ := List.exists_mem_of_ne_nil res.updates hne
    have hmem : e ∈ eventsFor (eventKey e) res.updates := by
      simp [eventsFor, List.mem_filter, he]
    by_cases hex : ∃ t ∈ res.trace, keyOf t = eventKey e ∧ fetchedCommit fetch t ≠ none
    · obtain ⟨t, ht, hkk, hne'⟩ := hex
      rcases hc : fetchedCommit fetch t with _ | c
      · exact absurd hc hne'
      · have hIA := (hInv (eventKey e)).2 t ht hkk c hc
        have hp : PrevSha ([] : StateMap) (eventKey e) = none := rfl
        rw [(hIA.1 hp).2] at hmem
        simp at hmem
    · have hnone : ∀ t ∈ res.trace, keyOf t = eventKey e →
          fetchedCommit fetch t = none := by
        intro t ht hkk
        by_contra hne'
        exact hex ⟨t, ht, hkk, hne'⟩
      rw [((hInv (eventKey e)).1 hnone).2] at hmem
      simp at hmem
  refine ⟨hupdates, ?_⟩
  intro k en hen
  by_cases hex : ∃ t ∈ res.trace, keyOf t = k ∧ fetchedCommit fetch t ≠ none
  · obtain ⟨t, ht, hkk, hne'⟩ := hex
    rcases hc : fetchedCommit fetch t with _ | c
    · exact absurd hc hne'
    · have hIA := (hInv k).2 t ht hkk c hc
      have hp : PrevSha ([] : StateMap) k = none := rfl
      have hlk := (hIA.1 hp).1
      refine ⟨t, c, ht, hkk, hc, ?_⟩
      exact Option.some.inj (hen.symm.trans hlk)
  · have hnone : ∀ t ∈ res.trace, keyOf t = k → fetchedCommit fetch t = none := by
      intro t ht hkk
      by_contra hne'
      exact hex ⟨t, ht, hkk, hne'⟩
    have hlk := ((hInv k).1 hnone).1
    rw [hen] at hlk
    simp [lookupKey] at hlk

/-- Witness for C10: with a corrupt config file the process exits 1, the
same status as with an absent config file. -/
theorem C10_witness :
    mainExitCode fetchA ("T") FileOnDisk.corrupt (FileOnDisk.valid ⟨[], none⟩) = 1 ∧
    mainExitCode fetchA ("T") FileOnDisk.corrupt (FileOnDisk.valid ⟨[], none⟩)
      = mainExitCode fetchA ("T") FileOnDisk.absent (FileOnDisk.valid ⟨[], none⟩) :=
  (C10_corrupt_json fetchA ("T")).2.1 (FileOnDisk.valid ⟨[], none⟩)

end LangMonitor
